import Mathlib

/-!
# Verification development for `cmd/keygen/main.go` (rpj/ahoy)

A shallow embedding of the Spring '83 key generator: the candidate filter
`valid`, the search loop `generateMatch`, the worker goroutine body, the
handoff on the `keys` channel, and the tail of `main` that names and writes
the output file.

Conventions of the embedding

* a Go `[]byte` is a `List Byte` with `Byte = Fin 256`;
* a Go `string` is a `List Char`;
* a run-time panic of a Go expression is the value `none` of an `Option`;
* the unbounded `for` of `generateMatch` is given a fuel argument.
-/

namespace Keygen

/-! ## Bytes and hexadecimal encoding (`encoding/hex`) -/

/-- A Go `byte`. -/
abbrev Byte := Fin 256

/-- The table `hextable` of `encoding/hex`. -/
def hextable : List Char :=
  ['0', '1', '2', '3', '4', '5', '6', '7', '8', '9', 'a', 'b', 'c', 'd', 'e', 'f']

/-- The two characters `hextable[v>>4]`, `hextable[v&0x0f]` written for one byte. -/
def hexByte (v : Byte) : List Char :=
  [hextable.getD (v.val >>> 4) '0', hextable.getD (v.val &&& 0x0f) '0']

/-- The function `hex.EncodeToString`; the verb `%x` of `fmt` on a byte slice gives the same
text. -/
def EncodeToString : List Byte → List Char
  | [] => []
  | v :: rest => hexByte v ++ EncodeToString rest

/-! ## Regular expressions (`regexp`) -/

/-- The syntax of the fragment of RE2 in which `pubkeyRe` is written. -/
inductive Pattern where
  /-- A literal character. -/
  | lit (c : Char)
  /-- A character class `[lo-hi]`. -/
  | range (lo hi : Char)
  /-- Concatenation. -/
  | cat (p q : Pattern)
  /-- Alternation `p|q`. -/
  | alt (p q : Pattern)
  /-- The assertion `$` (end of text; no multi-line flag). -/
  | eot

/-- All the ways a pattern can match at the start of a text: the list of the remainders left
after each possible match. -/
def Pattern.run : Pattern → List Char → List (List Char)
  | .lit c, x :: xs => if x = c then [xs] else []
  | .lit _, [] => []
  | .range lo hi, x :: xs => if lo.toNat ≤ x.toNat ∧ x.toNat ≤ hi.toNat then [xs] else []
  | .range _ _, [] => []
  | .cat p q, xs => (p.run xs).flatMap q.run
  | .alt p q, xs => p.run xs ++ q.run xs
  | .eot, xs => if xs.isEmpty then [[]] else []

/-- An unanchored search: the pattern matches somewhere in the text. -/
def Pattern.search (p : Pattern) (s : List Char) : Bool :=
  s.tails.any fun t => !(p.run t).isEmpty

/-- A compiled `*regexp.Regexp`, seen through its method `MatchString`. -/
structure Regexp where
  /-- The method `MatchString`. -/
  MatchString : List Char → Bool

/-- A literal string as a pattern followed by `k`. -/
def Pattern.lits : List Char → Pattern → Pattern
  | [], k => k
  | c :: cs, k => .cat (.lit c) (Pattern.lits cs k)

/-- The pattern `83e(0[1-9]|1[0-2])23$`. -/
def pubkeyPattern : Pattern :=
  Pattern.lits ['8', '3', 'e']
    (.cat (.alt (.cat (.lit '0') (.range '1' '9')) (.cat (.lit '1') (.range '0' '2')))
      (Pattern.lits ['2', '3'] .eot))

/-- The value `pubkeyRe` of `main`. -/
def pubkeyRe : Regexp := ⟨pubkeyPattern.search⟩

/-- The construction of `vanityRe` in `main`: `nil` when the flag value is the empty string
(its default), the compiled pattern otherwise. `MustCompile` is the compiler of `regexp`;
it gives `none` when it panics on a malformed pattern, and so does this function. -/
def mkVanityRe (MustCompile : List Char → Option Regexp) (vanityReStr : List Char) :
    Option (Option Regexp) :=
  if vanityReStr ≠ [] then
    match MustCompile vanityReStr with
    | some re => some (some re)
    | none => none
  else some none

/-! ## The candidate filter `valid` -/

/-- The function `binary.BigEndian.Uint16`: `uint16(b[1]) | uint16(b[0])<<8`, a panic when
the slice has fewer than two bytes. -/
def Uint16 : List Byte → Option Nat
  | b0 :: b1 :: _ => some (b1.val ||| (b0.val <<< 8) % 2 ^ 16)
  | _ => none

/-- The slice expression `pubkey[len(pubkey)-n:]`, a panic when `len(pubkey) < n`. -/
def lastBytes (n : Nat) (pubkey : List Byte) : Option (List Byte) :=
  if n ≤ pubkey.length then some (pubkey.drop (pubkey.length - n)) else none

/-- The fail-fast test of `valid`: `binary.BigEndian.Uint16(suffix)&0xfff != 0x83e` is
false, for `suffix := pubkey[len(pubkey)-4:]`. -/
def preCheck (pubkey : List Byte) : Option Bool :=
  match lastBytes 4 pubkey with
  | none => none
  | some suffix =>
    match Uint16 suffix with
    | none => none
    | some u => some (decide (u &&& 0xfff = 0x83e))

/-- The closure `valid` of `main`, over the captured `vanityRe` (`none` is Go's `nil`). -/
def valid (vanityRe : Option Regexp) (pubkey : List Byte) : Option Bool :=
  match preCheck pubkey with
  | none => none
  | some false => some false
  | some true =>
    let pubhex := EncodeToString pubkey
    match vanityRe with
    | some re => if !re.MatchString pubhex then some false else some (pubkeyRe.MatchString pubhex)
    | none => some (pubkeyRe.MatchString pubhex)

/-! ## The search loop `generateMatch` -/

/-- A Go `error` value, seen through its message. -/
abbrev Error := List Char

/-- What one call of `ed25519.GenerateKey(r)` gives back. -/
inductive Generated where
  /-- The triple `pub, priv, nil`. -/
  | ok (pub priv : List Byte)
  /-- The triple `nil, nil, err` with `err != nil`. -/
  | fail (err : Error)
  deriving DecidableEq

/-- The reader `r` under `ed25519.GenerateKey`, as an injected deterministic source: the
result of the call number `i`, counted from zero. -/
abbrev Source := Nat → Generated

/-- How a call of `generateMatch` ends. -/
inductive Outcome where
  /-- The statement `return priv, nil`. -/
  | key (priv : List Byte)
  /-- The statement `return nil, err`. -/
  | error (err : Error)
  /-- A panic raised inside `valid`. -/
  | panicked
  deriving DecidableEq

/-- The function `generateMatch`. The `for` loop is unrolled `fuel` times at most; `n` is
the number of calls of `GenerateKey` made so far. The result is the way the function ends,
paired with the total number of calls of `GenerateKey`; `none` when the fuel runs out. -/
def generateMatch (r : Source) (valid : List Byte → Option Bool) :
    (fuel : Nat) → (n : Nat) → Option (Outcome × Nat)
  | 0, _ => none
  | fuel + 1, n =>
    match r n with
    | .fail err => some (.error err, n + 1)
    | .ok pub priv =>
      match valid pub with
      | none => some (.panicked, n + 1)
      | some true => some (.key priv, n + 1)
      | some false => generateMatch r valid fuel (n + 1)

/-! ## Formatting (`fmt`) -/

/-- An operand of `Sprintf`. -/
inductive Arg where
  /-- A string, or an error printed through its message. -/
  | str (s : List Char)
  /-- A byte slice. -/
  | bytes (b : List Byte)
  /-- An unsigned integer. -/
  | uint (n : Nat)

/-- The function `fmt.Sprintf`, for the verbs and operands `main` uses: `%s` on a string,
`%x` on a byte slice, `%d` on an unsigned integer. -/
def Sprintf : List Char → List Arg → List Char
  | [], _ => []
  | '%' :: 's' :: rest, .str s :: args => s ++ Sprintf rest args
  | '%' :: 'x' :: rest, .bytes b :: args => EncodeToString b ++ Sprintf rest args
  | '%' :: 'd' :: rest, .uint n :: args => Nat.toDigits 10 n ++ Sprintf rest args
  | c :: rest, args => c :: Sprintf rest args

/-! ## The worker goroutine and the channel `keys` -/

/-- The state of the unbuffered channel `keys`. -/
inductive Chan where
  /-- Open, and `main` is blocked in `<-keys`. -/
  | receiving
  /-- Open, and no goroutine is blocked in a receive. -/
  | idle
  /-- Closed by `close(keys)`. -/
  | closed
  deriving DecidableEq

/-- The part of the program state the goroutines share. -/
structure State where
  /-- The slice `counts`. -/
  counts : List Nat
  /-- The channel `keys`. -/
  keys : Chan
  /-- The value `main` has received from `keys`, if any. -/
  key : Option (List Byte)
  /-- The lines written by `log.Printf`. -/
  log : List (List Char)
  /-- Whether a goroutine has panicked, which ends the process. -/
  crashed : Bool
  deriving DecidableEq

/-- The statement `counts[index]++` on `uint64` elements; `none` is the index panic. -/
def increment (counts : List Nat) (index : Nat) : Option (List Nat) :=
  if index < counts.length then
    some (counts.set index ((counts.getD index 0 + 1) % 2 ^ 64))
  else none

/-- The statement `select { case keys <- priv: close(keys); default: }`. A send on an open
unbuffered channel proceeds only when a receiver is blocked on it: the receiver gets the
value and the body of the case closes the channel. With no receiver blocked the `default`
case runs. A send on a closed channel panics, also inside a `select` with a `default`. -/
def selectSend (priv : List Byte) (s : State) : State :=
  match s.keys with
  | .receiving => { s with key := some priv, keys := .closed }
  | .idle => s
  | .closed => { s with crashed := true }

/-- The body of the goroutine started by `main` for `index`; `none` when the fuel given to
`generateMatch` runs out. -/
def worker (r : Source) (valid : List Byte → Option Bool) (fuel : Nat) (index : Nat)
    (s : State) : Option State :=
  match generateMatch r valid fuel 0 with
  | none => none
  | some (.panicked, _) => some { s with crashed := true }
  | some (.error err, _) =>
    some { s with log := s.log ++ [Sprintf "generateMatch: %s".toList [.str err]] }
  | some (.key priv, _) =>
    match increment s.counts index with
    | none => some { s with crashed := true }
    | some counts => some (selectSend priv { s with counts := counts })

/-- The state in which `main` has made `counts` and `keys`, has started its goroutines and
is blocked in `key := <-keys`. -/
def blockedMain (nGoroutines : Nat) : State :=
  { counts := List.replicate nGoroutines 0, keys := .receiving, key := none, log := [],
    crashed := false }

/-! ## The tail of `main` -/

/-- The function `sum` over `uint64`. -/
def sum (vv : List Nat) : Nat :=
  vv.foldl (fun acc v => (acc + v) % 2 ^ 64) 0

/-- The size `ed25519.PublicKeySize`. -/
def PublicKeySize : Nat := 32

/-- The name of the output file, `fmt.Sprintf("spring-83-keypair-%s-%x.txt", today, pub[:6])`
for `pub := key[len(key)-ed25519.PublicKeySize:]`, where `today` is the text
`time.Now().Format("2006-01-02")`. The slice expressions panic on a short key. -/
def filename (today : List Char) (key : List Byte) : Option (List Char) :=
  match lastBytes PublicKeySize key with
  | none => none
  | some pub =>
    if 6 ≤ pub.length then
      some (Sprintf "spring-83-keypair-%s-%x.txt".toList [.str today, .bytes (pub.take 6)])
    else none

/-- What a run of the program leaves behind. -/
structure Output where
  /-- The text written to standard output. -/
  stdout : List Char
  /-- The exit status of the process. -/
  exitCode : Nat
  deriving DecidableEq

/-- The statements of `main` after `key := <-keys`. `WriteFile` is `ioutil.WriteFile` on the
file system of the run (`none` is the `nil` error), `today` and `elapsed` are the texts of
`time.Now().Format("2006-01-02")` and of the truncated `time.Since(start)`. The value of
`WriteFile` is dropped, as in the source, and `main` returns, so the status is 0. -/
def mainTail (WriteFile : List Char → List Char → Option Error) (today elapsed : List Char)
    (counts : List Nat) (key : List Byte) : Option Output :=
  match filename today key with
  | none => none
  | some name =>
    let content := Sprintf "%x\n".toList [.bytes key]
    let _ := WriteFile name content
    some
      { stdout :=
          Sprintf "Checked %d candidates in %s\n".toList [.uint (sum counts), .str elapsed] ++
            Sprintf "Wrote: %s\n".toList [.str name]
        exitCode := 0 }

/-- A run of `main` on a host with one CPU, on the schedule in which `main` is blocked in
`key := <-keys` before the worker reaches its `select`. The result is `none` when the run
does not reach the report: the fuel runs out, a goroutine panics, or nothing is delivered
and `main` stays blocked. -/
def mainSingle (r : Source) (vanityRe : Option Regexp) (fuel : Nat)
    (WriteFile : List Char → List Char → Option Error) (today elapsed : List Char) :
    Option Output :=
  match worker r (valid vanityRe) fuel 0 (blockedMain 1) with
  | none => none
  | some s =>
    if s.crashed then none
    else
      match s.key with
      | none => none
      | some key => mainTail WriteFile today elapsed s.counts key

/-! ## The statements of the specification -/

/-- The two decimal digits of a number below one hundred. -/
def twoDigits (n : Nat) : List Char := [Char.ofNat (48 + n / 10), Char.ofNat (48 + n % 10)]

/-- The mandatory structural pattern in the words of the specification: the text ends with
`83e`, then a two-digit code in the inclusive range 01-12, then `23`. -/
def EndsWithDateCode (s : List Char) : Prop :=
  ∃ n ∈ List.range' 1 12, (['8', '3', 'e'] ++ twoDigits n ++ ['2', '3']) <:+ s

instance (s : List Char) : Decidable (EndsWithDateCode s) := by
  unfold EndsWithDateCode; infer_instance

/-- The two characters that `(0[1-9]|1[0-2])` accepts, by their code points: `0` then a
digit from `1` to `9`, or `1` then a digit from `0` to `2`. -/
def monthClass (a b : Char) : Prop :=
  (a = '0' ∧ 49 ≤ b.toNat ∧ b.toNat ≤ 57) ∨ (a = '1' ∧ 48 ≤ b.toNat ∧ b.toNat ≤ 50)

/-- The byte of a key at a position, as a number. -/
def byteAt (key : List Byte) (i : Nat) : Nat := (key.getD i 0).val

/-- The test on the final two bytes of the key: the lower 12 bits of the big-endian number
made of `key[n-2]` and `key[n-1]` are `0x83e`. -/
def finalTwoBytesTest (key : List Byte) : Bool :=
  decide ((byteAt key (key.length - 2) * 256 + byteAt key (key.length - 1)) &&& 0xfff = 0x83e)

/-- The test on the two bytes before the final two: the lower 12 bits of the big-endian
number made of `key[n-4]` and `key[n-3]` are `0x83e`. -/
def leadingTwoBytesTest (key : List Byte) : Bool :=
  decide ((byteAt key (key.length - 4) * 256 + byteAt key (key.length - 3)) &&& 0xfff = 0x83e)

/-! ## Sample inputs -/

/-- A 32-byte public key whose hexadecimal text ends in `083e0523`. -/
def sampleKey : List Byte := List.replicate 28 0 ++ [0x08, 0x3e, 0x05, 0x23]

/-- A 32-byte public key that passes the fail-fast test and whose code `13` is no month. -/
def offMonthKey : List Byte := List.replicate 28 0 ++ [0xf8, 0x3e, 0x13, 0x23]

/-- A 32-byte public key that fails the fail-fast test. -/
def plainKey : List Byte := List.replicate 28 0 ++ [0x01, 0x02, 0x03, 0x04]

/-- A vanity pattern that matches the texts starting with `00`. -/
def startsWith00 : Regexp := ⟨fun s => s.take 2 == ['0', '0']⟩

/-- The 64-byte private key of `sampleKey`: a seed followed by the public key. -/
def samplePriv : List Byte := List.replicate 32 7 ++ sampleKey

/-- The 64-byte private key of `plainKey`. -/
def plainPriv : List Byte := List.replicate 32 9 ++ plainKey

/-- A source that yields three keypairs the filter rejects, then keypairs it accepts. -/
def fourthWins : Source := fun i =>
  if i < 3 then .ok plainKey plainPriv else .ok sampleKey samplePriv

/-- A source whose every keypair the filter accepts. -/
def firstWins : Source := fun _ => .ok sampleKey samplePriv

/-- A source that yields two keypairs the filter rejects and fails from then on. -/
def failsThird : Source := fun i =>
  if i < 2 then .ok plainKey plainPriv else .fail "EOF".toList

/-- A 64-byte private key whose public half starts with the bytes `AA BB CC DD EE FF`. -/
def tagKey : List Byte :=
  List.replicate 32 7 ++ [0xaa, 0xbb, 0xcc, 0xdd, 0xee, 0xff] ++ List.replicate 26 0

/-- A file system on which every write fails. -/
def diskFull : List Char → List Char → Option Error :=
  fun _ _ => some "no space left on device".toList

/-! ## Lemmas on the regular expression -/

theorem mem_run_lit (c : Char) (t r : List Char) :
    r ∈ (Pattern.lit c).run t ↔ t = c :: r := by
  cases t with
  | nil => simp [Pattern.run]
  | cons x xs =>
    by_cases h : x = c
    · simp [Pattern.run, h, eq_comm]
    · simp [Pattern.run, h]

theorem mem_run_range (lo hi : Char) (t r : List Char) :
    r ∈ (Pattern.range lo hi).run t ↔
      ∃ x, t = x :: r ∧ lo.toNat ≤ x.toNat ∧ x.toNat ≤ hi.toNat := by
  cases t with
  | nil => simp [Pattern.run]
  | cons x xs =>
    by_cases h : lo.toNat ≤ x.toNat ∧ x.toNat ≤ hi.toNat
    · simp only [Pattern.run, h, and_self, if_true, List.mem_singleton]
      constructor
      · rintro rfl; exact ⟨x, rfl, h⟩
      · rintro ⟨y, hy, -⟩; simp at hy; exact hy.2.symm
    · simp only [Pattern.run, h, if_false, List.not_mem_nil, false_iff]
      rintro ⟨y, hy, h1, h2⟩
      simp at hy
      exact h (hy.1 ▸ ⟨h1, h2⟩)

theorem mem_run_cat (p q : Pattern) (t r : List Char) :
    r ∈ (Pattern.cat p q).run t ↔ ∃ m, m ∈ p.run t ∧ r ∈ q.run m := by
  simp [Pattern.run, List.mem_flatMap]

theorem mem_run_alt (p q : Pattern) (t r : List Char) :
    r ∈ (Pattern.alt p q).run t ↔ r ∈ p.run t ∨ r ∈ q.run t := by
  simp [Pattern.run]

theorem mem_run_eot (t r : List Char) :
    r ∈ Pattern.eot.run t ↔ t = [] ∧ r = [] := by
  cases t <;> simp [Pattern.run]

theorem isEmpty_eq_false_iff_exists_mem {α : Type} (l : List α) :
    l.isEmpty = false ↔ ∃ r, r ∈ l := by
  cases l <;> simp

theorem run_pubkeyPattern (t : List Char) :
    (pubkeyPattern.run t).isEmpty = false ↔
      ∃ a b, t = ['8', '3', 'e', a, b, '2', '3'] ∧ monthClass a b := by
  rw [isEmpty_eq_false_iff_exists_mem]
  unfold pubkeyPattern monthClass
  simp only [Pattern.lits, mem_run_cat, mem_run_lit, mem_run_alt, mem_run_range, mem_run_eot]
  constructor
  · rintro ⟨r, m1, rfl, m2, rfl, m3, rfl, m4, h, m5, rfl, m6, rfl, rfl, rfl⟩
    rcases h with ⟨m7, rfl, x, rfl, h1, h2⟩ | ⟨m7, rfl, x, rfl, h1, h2⟩
    · exact ⟨'0', x, rfl, Or.inl ⟨rfl, h1, h2⟩⟩
    · exact ⟨'1', x, rfl, Or.inr ⟨rfl, h1, h2⟩⟩
  · rintro ⟨a, b, rfl, h⟩
    refine ⟨[], _, rfl, _, rfl, _, rfl, ['2', '3'], ?_, _, rfl, _, rfl, rfl, rfl⟩
    rcases h with ⟨rfl, h1, h2⟩ | ⟨rfl, h1, h2⟩
    · exact Or.inl ⟨_, rfl, b, rfl, h1, h2⟩
    · exact Or.inr ⟨_, rfl, b, rfl, h1, h2⟩

theorem monthClass_iff (a b : Char) :
    monthClass a b ↔ ∃ n ∈ List.range' 1 12, [a, b] = twoDigits n := by
  constructor
  · rintro (⟨rfl, h1, h2⟩ | ⟨rfl, h1, h2⟩)
    · refine ⟨b.toNat - 48, ?_, ?_⟩
      · simp only [List.mem_range'_1]; omega
      · have e1 : (b.toNat - 48) / 10 = 0 := by omega
        have e2 : 48 + (b.toNat - 48) % 10 = b.toNat := by omega
        simp only [twoDigits, e1, e2, Char.ofNat_toNat]
    · refine ⟨10 + (b.toNat - 48), ?_, ?_⟩
      · simp only [List.mem_range'_1]; omega
      · have e1 : (10 + (b.toNat - 48)) / 10 = 1 := by omega
        have e2 : 48 + (10 + (b.toNat - 48)) % 10 = b.toNat := by omega
        simp only [twoDigits, e1, e2, Char.ofNat_toNat]
  · rintro ⟨n, hn, h⟩
    simp only [List.mem_range'_1] at hn
    obtain ⟨h1, h2⟩ := hn
    simp only [twoDigits, List.cons.injEq, and_true] at h
    obtain ⟨rfl, rfl⟩ := h
    unfold monthClass
    interval_cases n <;> decide

theorem search_pubkeyPattern (s : List Char) :
    pubkeyPattern.search s = true ↔ EndsWithDateCode s := by
  unfold Pattern.search EndsWithDateCode
  simp only [List.any_eq_true, List.mem_tails, Bool.not_eq_true', run_pubkeyPattern,
    monthClass_iff]
  constructor
  · rintro ⟨t, ht, a, b, rfl, n, hn, hab⟩
    refine ⟨n, hn, ?_⟩
    rw [← hab]
    exact ht
  · rintro ⟨n, hn, h⟩
    refine ⟨_, h, (twoDigits n).headD '0', (twoDigits n).getD 1 '0', ?_, n, hn, ?_⟩ <;>
      simp [twoDigits]

/-! ## Lemmas on the filter -/

theorem exists_last_four (l : List Byte) (h : 4 ≤ l.length) :
    ∃ init a b c d, l = init ++ [a, b, c, d] := by
  refine ⟨l.take (l.length - 4), ?_⟩
  have hd : (l.drop (l.length - 4)).length = 4 := by
    rw [List.length_drop]; omega
  have hl : l = l.take (l.length - 4) ++ l.drop (l.length - 4) := (List.take_append_drop _ _).symm
  generalize l.drop (l.length - 4) = t at hd hl
  match t, hd with
  | [a, b, c, d], _ => exact ⟨a, b, c, d, hl⟩

theorem lastBytes_append (n : Nat) (init t : List Byte) (h : t.length = n) :
    lastBytes n (init ++ t) = some t := by
  unfold lastBytes
  have h1 : n ≤ (init ++ t).length := by simp; omega
  have h2 : (init ++ t).length - n = init.length := by simp; omega
  rw [if_pos h1, h2, List.drop_left]

theorem uint16_land (a b : Byte) :
    (b.val ||| (a.val <<< 8) % 2 ^ 16) &&& 0xfff = a.val % 16 * 256 + b.val := by
  have ha := a.isLt
  have hb := b.isLt
  have h1 : (a.val <<< 8) % 2 ^ 16 = 2 ^ 8 * a.val := by
    rw [Nat.shiftLeft_eq]; omega
  rw [h1, Nat.lor_comm, ← Nat.mul_add_lt_is_or (show b.val < 2 ^ 8 by omega) a.val,
    show (0xfff : Nat) = 2 ^ 12 - 1 by norm_num, Nat.and_pow_two_sub_one_eq_mod]
  omega

theorem preCheck_append (init : List Byte) (a b c d : Byte) :
    preCheck (init ++ [a, b, c, d]) = some (decide (a.val % 16 * 256 + b.val = 0x83e)) := by
  unfold preCheck
  rw [lastBytes_append 4 init [a, b, c, d] rfl]
  simp only [Uint16, uint16_land]

theorem EncodeToString_append (l t : List Byte) :
    EncodeToString (l ++ t) = EncodeToString l ++ EncodeToString t := by
  induction l with
  | nil => rfl
  | cons v rest ih => simp [EncodeToString, ih]

theorem length_EncodeToString (l : List Byte) : (EncodeToString l).length = 2 * l.length := by
  induction l with
  | nil => rfl
  | cons v rest ih => simp [EncodeToString, hexByte, ih]; omega

theorem hexByte_eq (v : Byte) :
    hexByte v = [hextable.getD (v.val / 16) '0', hextable.getD (v.val % 16) '0'] := by
  unfold hexByte
  rw [Nat.shiftRight_eq_div_pow, show (0x0f : Nat) = 2 ^ 4 - 1 by norm_num,
    Nat.and_pow_two_sub_one_eq_mod]

theorem hextable_inj : ∀ m < 16, ∀ n < 16, hextable.getD m '0' = hextable.getD n '0' → m = n := by
  decide

theorem byteAt_append_four (init : List Byte) (a b c d : Byte) :
    byteAt (init ++ [a, b, c, d]) ((init ++ [a, b, c, d]).length - 4) = a.val ∧
    byteAt (init ++ [a, b, c, d]) ((init ++ [a, b, c, d]).length - 3) = b.val ∧
    byteAt (init ++ [a, b, c, d]) ((init ++ [a, b, c, d]).length - 2) = c.val ∧
    byteAt (init ++ [a, b, c, d]) ((init ++ [a, b, c, d]).length - 1) = d.val := by
  have e4 : (init ++ [a, b, c, d]).length - 4 = init.length := by simp
  have e3 : (init ++ [a, b, c, d]).length - 3 = init.length + 1 := by simp
  have e2 : (init ++ [a, b, c, d]).length - 2 = init.length + 2 := by simp
  have e1 : (init ++ [a, b, c, d]).length - 1 = init.length + 3 := by simp
  rw [e4, e3, e2, e1]
  unfold byteAt
  refine ⟨?_, ?_, ?_, ?_⟩ <;> rw [List.getD_append_right _ _ _ _ (by omega)] <;> simp

theorem EncodeToString_four (a b c d : Byte) :
    EncodeToString [a, b, c, d] =
      [hextable.getD (a.val / 16) '0', hextable.getD (a.val % 16) '0',
        hextable.getD (b.val / 16) '0', hextable.getD (b.val % 16) '0',
        hextable.getD (c.val / 16) '0', hextable.getD (c.val % 16) '0',
        hextable.getD (d.val / 16) '0', hextable.getD (d.val % 16) '0'] := by
  simp [EncodeToString, hexByte_eq]

theorem nibbles_of_endsWithDateCode (init : List Byte) (a b c d : Byte)
    (h : EndsWithDateCode (EncodeToString (init ++ [a, b, c, d]))) :
    a.val % 16 * 256 + b.val = 0x83e := by
  obtain ⟨n, -, hsuf⟩ := h
  rw [EncodeToString_append, EncodeToString_four] at hsuf
  have h8 := List.suffix_append (EncodeToString init)
    [hextable.getD (a.val / 16) '0', hextable.getD (a.val % 16) '0',
      hextable.getD (b.val / 16) '0', hextable.getD (b.val % 16) '0',
      hextable.getD (c.val / 16) '0', hextable.getD (c.val % 16) '0',
      hextable.getD (d.val / 16) '0', hextable.getD (d.val % 16) '0']
  have h7 := List.suffix_of_suffix_length_le hsuf h8 (by simp [twoDigits])
  obtain ⟨t, ht⟩ := h7
  have hlen := congrArg List.length ht
  simp only [twoDigits, List.length_append, List.length_cons, List.length_nil] at hlen
  match t, hlen, ht with
  | [x], _, ht =>
    simp only [twoDigits, List.cons_append, List.nil_append, List.cons.injEq] at ht
    obtain ⟨-, h1, h2, h3, -⟩ := ht
    have ha := a.isLt
    have hb := b.isLt
    have e1 := hextable_inj 8 (by omega) (a.val % 16) (by omega) h1
    have e2 := hextable_inj 3 (by omega) (b.val / 16) (by omega) h2
    have e3 := hextable_inj 14 (by omega) (b.val % 16) (by omega) h3
    omega

theorem preCheck_eq_some (pubkey : List Byte) (hlen : 4 ≤ pubkey.length) :
    ∃ b, preCheck pubkey = some b := by
  obtain ⟨init, a, b, c, d, rfl⟩ := exists_last_four pubkey hlen
  exact ⟨_, preCheck_append init a b c d⟩

theorem preCheck_of_endsWithDateCode (pubkey : List Byte) (hlen : 4 ≤ pubkey.length)
    (h : EndsWithDateCode (EncodeToString pubkey)) : preCheck pubkey = some true := by
  obtain ⟨init, a, b, c, d, rfl⟩ := exists_last_four pubkey hlen
  rw [preCheck_append, nibbles_of_endsWithDateCode init a b c d h]
  rfl

theorem pubkeyRe_MatchString (s : List Char) :
    pubkeyRe.MatchString s = true ↔ EndsWithDateCode s :=
  search_pubkeyPattern s

theorem leadingTwoBytesTest_append (init : List Byte) (a b c d : Byte) :
    leadingTwoBytesTest (init ++ [a, b, c, d]) = decide (a.val % 16 * 256 + b.val = 0x83e) := by
  obtain ⟨h4, h3, -, -⟩ := byteAt_append_four init a b c d
  unfold leadingTwoBytesTest
  rw [h4, h3, show (0xfff : Nat) = 2 ^ 12 - 1 by norm_num, Nat.and_pow_two_sub_one_eq_mod]
  have ha := a.isLt
  have hb := b.isLt
  congr 1
  apply propext
  constructor <;> intro h <;> omega

/-! ## The claims on the filter -/

/-- C1: a public key of at least 4 bytes whose hexadecimal text ends with `83e`, a two-digit
code in 01-12 and `23` passes the 12-bit fail-fast test, and `valid` returns true on it when
no vanity pattern is configured. -/
theorem valid_of_endsWithDateCode (pubkey : List Byte) (hlen : 4 ≤ pubkey.length)
    (h : EndsWithDateCode (EncodeToString pubkey)) :
    preCheck pubkey = some true ∧ valid none pubkey = some true := by
  have hp := preCheck_of_endsWithDateCode pubkey hlen h
  refine ⟨hp, ?_⟩
  simp only [valid, hp]
  exact congrArg some ((pubkeyRe_MatchString _).2 h)

theorem valid_of_endsWithDateCode_witness :
    4 ≤ sampleKey.length ∧ EndsWithDateCode (EncodeToString sampleKey) ∧
      valid none sampleKey = some true :=
  ⟨by decide, by decide, (valid_of_endsWithDateCode sampleKey (by decide) (by decide)).2⟩

/-- C2: for a public key of at least 4 bytes and any vanity configuration, absent or any
pattern, `valid` returns false when the hexadecimal text of the key does not end with `83e`,
a two-digit code in 01-12 and `23`, whether the fail-fast test passes or not. -/
theorem valid_false_of_not_endsWithDateCode (vanityRe : Option Regexp) (pubkey : List Byte)
    (hlen : 4 ≤ pubkey.length) (h : ¬ EndsWithDateCode (EncodeToString pubkey)) :
    valid vanityRe pubkey = some false := by
  have hm : pubkeyRe.MatchString (EncodeToString pubkey) = false := by
    rw [← Bool.not_eq_true, pubkeyRe_MatchString]
    exact h
  obtain ⟨b, hb⟩ := preCheck_eq_some pubkey hlen
  cases b with
  | false => simp only [valid, hb]
  | true =>
    cases vanityRe with
    | none => simp only [valid, hb, hm]
    | some re =>
      simp only [valid, hb, hm]
      split <;> rfl

theorem valid_false_of_not_endsWithDateCode_witness :
    preCheck offMonthKey = some true ∧ valid (some startsWith00) offMonthKey = some false :=
  ⟨by decide, valid_false_of_not_endsWithDateCode (some startsWith00) offMonthKey (by decide)
    (by decide)⟩

/-- C3: for a public key of at least 4 bytes whose hexadecimal text satisfies the mandatory
pattern, `valid` under a configured vanity pattern returns exactly whether that pattern
matches the same hexadecimal text; and an empty `--vanity` value, which is also the value of
an absent flag, configures no pattern, under which `valid` returns true. -/
theorem valid_vanity_composition (MustCompile : List Char → Option Regexp)
    (pubkey : List Byte) (hlen : 4 ≤ pubkey.length)
    (h : EndsWithDateCode (EncodeToString pubkey)) :
    (∀ re : Regexp, valid (some re) pubkey = some (re.MatchString (EncodeToString pubkey))) ∧
    (∀ str re, str ≠ [] → MustCompile str = some re →
      (mkVanityRe MustCompile str).bind (fun v => valid v pubkey) =
        some (re.MatchString (EncodeToString pubkey))) ∧
    mkVanityRe MustCompile [] = some none ∧
    (mkVanityRe MustCompile []).bind (fun v => valid v pubkey) = some true := by
  have hp := preCheck_of_endsWithDateCode pubkey hlen h
  have hm := (pubkeyRe_MatchString _).2 h
  have hre : ∀ re : Regexp,
      valid (some re) pubkey = some (re.MatchString (EncodeToString pubkey)) := by
    intro re
    simp only [valid, hp, hm]
    cases re.MatchString (EncodeToString pubkey) <;> rfl
  refine ⟨hre, ?_, ?_, ?_⟩
  · intro str re hstr hc
    simp only [mkVanityRe, hstr, ne_eq, not_false_eq_true, if_true, hc, Option.some_bind, hre]
  · simp [mkVanityRe]
  · simp only [mkVanityRe, ne_eq, not_true_eq_false, if_false, Option.some_bind, valid, hp, hm]

theorem valid_vanity_composition_witness :
    valid (some startsWith00) sampleKey = some true ∧
      mkVanityRe (fun _ => some startsWith00) [] = some none :=
  ⟨(valid_vanity_composition (fun _ => some startsWith00) sampleKey (by decide)
      (by decide)).1 startsWith00,
    (valid_vanity_composition (fun _ => some startsWith00) sampleKey (by decide)
      (by decide)).2.2.1⟩

/-- C4, as stated, fails: on `sampleKey` the fail-fast test passes and `valid` returns true,
although the lower 12 bits of the number made of the final two bytes `05 23` are not
`0x83e`. -/
theorem preCheck_ne_finalTwoBytesTest :
    ¬ ((preCheck sampleKey = some true ↔ finalTwoBytesTest sampleKey = true) ∧
      (finalTwoBytesTest sampleKey = false → valid none sampleKey = some false)) := by
  decide

/-- C4, amended: the fail-fast test reads the first two of the last four bytes. For a key
of `n ≥ 4` bytes it passes exactly when `((key[n-4] * 256 + key[n-3]) & 0xfff) = 0x83e`,
and `valid` returns false, under any vanity configuration, whenever it does not pass. -/
theorem preCheck_eq_leadingTwoBytesTest (pubkey : List Byte) (hlen : 4 ≤ pubkey.length) :
    preCheck pubkey = some (leadingTwoBytesTest pubkey) ∧
      (leadingTwoBytesTest pubkey = false → ∀ vanityRe, valid vanityRe pubkey = some false) := by
  obtain ⟨init, a, b, c, d, rfl⟩ := exists_last_four pubkey hlen
  have hp : preCheck (init ++ [a, b, c, d]) = some (leadingTwoBytesTest (init ++ [a, b, c, d])) := by
    rw [preCheck_append, leadingTwoBytesTest_append]
  refine ⟨hp, ?_⟩
  intro hf vanityRe
  rw [hf] at hp
  simp only [valid, hp]

theorem preCheck_eq_leadingTwoBytesTest_witness :
    preCheck plainKey = some false ∧ valid (some startsWith00) plainKey = some false :=
  ⟨by decide, (preCheck_eq_leadingTwoBytesTest plainKey (by decide)).2 (by decide)
    (some startsWith00)⟩

/-! ## Lemmas on the search loop and on formatting -/

theorem generateMatch_skip (r : Source) (valid : List Byte → Option Bool) (j : Nat) :
    ∀ n fuel, (∀ i, n ≤ i → i < n + j → ∃ pub priv, r i = .ok pub priv ∧ valid pub = some false) →
      generateMatch r valid (j + fuel) n = generateMatch r valid fuel (n + j) := by
  induction j with
  | zero => intro n fuel _; simp
  | succ j ih =>
    intro n fuel h
    obtain ⟨pub, priv, h1, h2⟩ := h n (Nat.le_refl n) (by omega)
    rw [show j + 1 + fuel = (j + fuel) + 1 by omega]
    simp only [generateMatch, h1, h2]
    rw [ih (n + 1) fuel (fun i hi1 hi2 => h i (by omega) (by omega))]
    congr 1
    omega

/-! ## The claims on the search, the workers and the output -/

/-- C5: when the source yields keypairs without error and position `k`, counted from one, is
the first whose public key the filter accepts, `generateMatch` returns the private key of
that `k`-th keypair with a nil error after exactly `k` calls of `GenerateKey`, given any fuel
of at least `k`; and a single worker started while `main` is blocked in the receive hands
that key to `main`. -/
theorem generateMatch_first_match (r : Source) (valid : List Byte → Option Bool)
    (pub priv : Nat → List Byte) (k : Nat) (hk : 0 < k)
    (hgen : ∀ i, i < k → r i = .ok (pub i) (priv i))
    (hbad : ∀ i, i < k - 1 → valid (pub i) = some false)
    (hgood : valid (pub (k - 1)) = some true) (fuel : Nat) (hfuel : k ≤ fuel) :
    generateMatch r valid fuel 0 = some (.key (priv (k - 1)), k) ∧
      (worker r valid fuel 0 (blockedMain 1)).map (fun s => s.key) = some (some (priv (k - 1))) := by
  have hg : generateMatch r valid fuel 0 = some (.key (priv (k - 1)), k) := by
    obtain ⟨f, rfl⟩ : ∃ f, fuel = (k - 1) + (f + 1) := ⟨fuel - k, by omega⟩
    rw [generateMatch_skip r valid (k - 1) 0 (f + 1)
      (fun i _ hi => ⟨pub i, priv i, hgen i (by omega), hbad i (by omega)⟩)]
    simp only [Nat.zero_add, generateMatch, hgen (k - 1) (by omega), hgood]
    congr 3
    omega
  refine ⟨hg, ?_⟩
  simp [worker, hg, blockedMain, increment, selectSend]

theorem generateMatch_first_match_witness :
    generateMatch fourthWins (valid none) 4 0 = some (.key samplePriv, 4) ∧
      (worker fourthWins (valid none) 4 0 (blockedMain 1)).map (fun s => s.key) =
        some (some samplePriv) :=
  (generateMatch_first_match fourthWins (valid none) (fun i => if i < 3 then plainKey else sampleKey)
    (fun i => if i < 3 then plainPriv else samplePriv) 4 (by decide)
    (by decide) (by decide) (by decide) 4 (by decide))

/-- C6 fails on the code: on a source whose fourth keypair is the first valid one, the single
worker calls `GenerateKey` four times, yet its counter ends at 1 and the report reads
`Checked 1 candidates`, since `counts[index]++` runs once, after `generateMatch` returns. -/
theorem counts_after_four_attempts :
    generateMatch fourthWins (valid none) 4 0 = some (.key samplePriv, 4) ∧
      (worker fourthWins (valid none) 4 0 (blockedMain 1)).map (fun s => (s.counts, s.key)) =
        some ([1], some samplePriv) ∧
      (mainSingle fourthWins none 4 (fun _ _ => none) "2022-06-10".toList "1.5s".toList).map
          (fun o => o.stdout) =
        some ("Checked 1 candidates in 1.5s\n".toList ++
          "Wrote: spring-83-keypair-2022-06-10-000000000000.txt\n".toList) := by
  decide

/-- C7 fails on the code: with two workers that both find a valid key, the first delivers
and closes `keys`; the `select` of the second then sends on a closed channel, which panics
and ends the process, instead of discarding the key silently. -/
theorem second_delivery_panics :
    ((worker firstWins (valid none) 1 0 (blockedMain 2)).bind
        (worker firstWins (valid none) 1 1)).map (fun s => (s.counts, s.keys, s.key, s.crashed)) =
      some ([1, 1], Chan.closed, some samplePriv, true) := by
  decide

/-- C8: when the call number `k` of `GenerateKey` is the first to fail and no earlier keypair
is valid, `generateMatch` returns that error and no key after exactly `k + 1` calls, given
any fuel above `k`; the worker then ends with the counters, the channel and the value held
by `main` unchanged. -/
theorem generateMatch_error (r : Source) (valid : List Byte → Option Bool)
    (pub priv : Nat → List Byte) (k : Nat) (err : Error)
    (hgen : ∀ i, i < k → r i = .ok (pub i) (priv i))
    (hbad : ∀ i, i < k → valid (pub i) = some false)
    (herr : r k = .fail err) (fuel : Nat) (hfuel : k < fuel) (index : Nat) (s : State) :
    generateMatch r valid fuel 0 = some (.error err, k + 1) ∧
      ∃ s', worker r valid fuel index s = some s' ∧ s'.counts = s.counts ∧ s'.keys = s.keys ∧
        s'.key = s.key ∧ s'.crashed = s.crashed := by
  have hg : generateMatch r valid fuel 0 = some (.error err, k + 1) := by
    obtain ⟨f, rfl⟩ : ∃ f, fuel = k + (f + 1) := ⟨fuel - k - 1, by omega⟩
    rw [generateMatch_skip r valid k 0 (f + 1)
      (fun i _ hi => ⟨pub i, priv i, hgen i (by omega), hbad i (by omega)⟩)]
    simp only [Nat.zero_add, generateMatch, herr]
  refine ⟨hg, ?_⟩
  simp only [worker, hg]
  exact ⟨_, rfl, rfl, rfl, rfl, rfl⟩

theorem generateMatch_error_witness :
    generateMatch failsThird (valid none) 5 0 = some (.error "EOF".toList, 3) ∧
      ∃ s', worker failsThird (valid none) 5 0 (blockedMain 1) = some s' ∧
        s'.counts = [0] ∧ s'.keys = Chan.receiving ∧ s'.key = none ∧ s'.crashed = false :=
  generateMatch_error failsThird (valid none) (fun _ => plainKey) (fun _ => plainPriv) 2
    "EOF".toList (by decide) (by decide) (by decide) 5 (by decide) 0 (blockedMain 1)

theorem mem_hextable_of_mem_EncodeToString (l : List Byte) :
    ∀ c ∈ EncodeToString l, c ∈ hextable := by
  induction l with
  | nil => simp [EncodeToString]
  | cons v rest ih =>
    intro c hc
    simp only [EncodeToString, hexByte_eq, List.cons_append, List.nil_append,
      List.mem_cons] at hc
    have hv := v.isLt
    have key : ∀ n < 16, hextable.getD n '0' ∈ hextable := by decide
    rcases hc with rfl | rfl | hc
    · exact key _ (by omega)
    · exact key _ (by omega)
    · exact ih c hc

theorem Sprintf_plain (c : Char) (hc : c ≠ '%') (rest : List Char) (args : List Arg) :
    Sprintf (c :: rest) args = c :: Sprintf rest args := by
  rw [Sprintf]
  all_goals simp_all

theorem Sprintf_plains (w : List Char) (hw : ∀ c ∈ w, c ≠ '%') (rest : List Char)
    (args : List Arg) : Sprintf (w ++ rest) args = w ++ Sprintf rest args := by
  induction w with
  | nil => rfl
  | cons c w ih =>
    rw [List.cons_append, Sprintf_plain c (hw c (List.mem_cons_self _ _)),
      ih (fun d hd => hw d (List.mem_cons_of_mem _ hd)), List.cons_append]

theorem Sprintf_s (s rest : List Char) (args : List Arg) :
    Sprintf ('%' :: 's' :: rest) (.str s :: args) = s ++ Sprintf rest args := by
  rw [Sprintf]

theorem Sprintf_x (b : List Byte) (rest : List Char) (args : List Arg) :
    Sprintf ('%' :: 'x' :: rest) (.bytes b :: args) = EncodeToString b ++ Sprintf rest args := by
  rw [Sprintf]

/-- C9: for a 64-byte private key and any date text, the file name is `spring-83-keypair-`,
the date, `-`, the hexadecimal text of the first 6 bytes of the public key (the last 32 bytes
of the private key), and `.txt`; that hexadecimal text has 12 characters, all of them among
`0123456789abcdef`. -/
theorem filename_format (today : List Char) (key : List Byte) (hlen : key.length = 64) :
    filename today key =
        some ("spring-83-keypair-".toList ++ today ++ ['-'] ++
          EncodeToString ((key.drop 32).take 6) ++ ".txt".toList) ∧
      (EncodeToString ((key.drop 32).take 6)).length = 12 ∧
      ∀ c ∈ EncodeToString ((key.drop 32).take 6), c ∈ hextable := by
  refine ⟨?_, ?_, mem_hextable_of_mem_EncodeToString _⟩
  · have h1 : lastBytes PublicKeySize key = some (key.drop 32) := by
      simp [lastBytes, PublicKeySize, hlen]
    have h2 : 6 ≤ (key.drop 32).length := by simp [hlen]
    simp only [filename, h1, h2, if_true]
    have hf : "spring-83-keypair-%s-%x.txt".toList =
        "spring-83-keypair-".toList ++ '%' :: 's' :: '-' :: '%' :: 'x' :: ".txt".toList := by
      decide
    have ht : Sprintf ".txt".toList [] = ".txt".toList := by decide
    rw [hf, Sprintf_plains _ (by decide), Sprintf_s, Sprintf_plain '-' (by decide), Sprintf_x, ht]
    simp
  · rw [length_EncodeToString, List.length_take, List.length_drop, hlen]
    rfl

theorem filename_format_witness :
    filename "2022-06-10".toList tagKey =
      some "spring-83-keypair-2022-06-10-aabbccddeeff.txt".toList :=
  (filename_format "2022-06-10".toList tagKey (by decide)).1.trans (by decide)

/-- C10 fails on the code: on a file system where the write fails, `main` still prints the
`Wrote:` line and ends with status 0, since the value of `ioutil.WriteFile` is dropped. -/
theorem write_failure_reported_as_success :
    diskFull "spring-83-keypair-2022-06-10-000000000000.txt".toList
        (Sprintf "%x\n".toList [.bytes samplePriv]) ≠ none ∧
      mainTail diskFull "2022-06-10".toList "1.5s".toList [1] samplePriv =
        some
          { stdout := "Checked 1 candidates in 1.5s\n".toList ++
              "Wrote: spring-83-keypair-2022-06-10-000000000000.txt\n".toList
            exitCode := 0 } := by
  decide

end Keygen
